import Mathlib

/-!
Shallow embedding of `src/patcher.ts` (GitCracken): the asar
extraction-with-fallback engine, the unpacked-tree copier, the diff and
pattern patch engines, and the `Patcher` constructor.

Modelling conventions:
* the filesystem is a flat map from full paths (lists of segments) to
  nodes (`file content` or `dir`); every filesystem primitive used by the
  source (`existsSync`, `statSync`, `ensureDirSync`, `removeSync`,
  `writeFileSync`, `copyFileSync`, `unlinkSync`) is modelled as an
  explicit operation on that map;
* external library calls that are not part of this repository
  (`asar.extractAll`, `asar.extractFile`, `asar.listPackage`,
  `diff.applyPatch`, the regex `String.replace`) are either taken as
  parameters of the embedded functions or modelled from the spec, as
  marked in their doc comments;
* all code is synchronous and single-threaded in the source, so every
  operation is a pure state-passing function; errors are modelled as an
  `Option`/`Except`-style error component carried next to the state.
-/

/-- A filesystem node: a regular file with string content, or a directory. -/
inductive FsNode where
  | file (content : String)
  | dir
deriving DecidableEq

/-- A full filesystem path, as a list of segments. -/
abbrev FPath := List String

/-- The filesystem: a flat map from full paths to nodes. -/
abbrev FS := FPath → Option FsNode

/-- `fs.writeFileSync(p, c)`: overwrite the node at `p` with a file. -/
def fsWrite (fs : FS) (p : FPath) (c : String) : FS :=
  fun q => if q = p then some (.file c) else fs q

/-- `fs.ensureDirSync(p)`: create a directory at `p` if nothing exists there. -/
def fsEnsureDir (fs : FS) (p : FPath) : FS :=
  match fs p with
  | none => fun q => if q = p then some .dir else fs q
  | some _ => fs

/-- `fs.removeSync(p)` / `fs.unlinkSync(p)`: delete the node at `p`. -/
def fsRemove (fs : FS) (p : FPath) : FS :=
  fun q => if q = p then none else fs q

/-- A state-independent filesystem operation, used to give trace semantics
to the unpacked-tree copy and the bulk extraction (whose actions do not
depend on the destination state). -/
inductive FsOp where
  | write (p : FPath) (c : String)
  | ensure (p : FPath)
deriving DecidableEq

/-- Apply one operation. -/
def applyOp (fs : FS) : FsOp → FS
  | .write p c => fsWrite fs p c
  | .ensure p => fsEnsureDir fs p

/-- Apply a list of operations in order. -/
def applyOps (ops : List FsOp) (fs : FS) : FS :=
  ops.foldl applyOp fs

/-- Decide whether `pat` is a prefix of `s` (over character lists). -/
def charsHavePre : List Char → List Char → Bool
  | [], _ => true
  | _ :: _, [] => false
  | a :: ps, b :: ss => a == b && charsHavePre ps ss

/-- Decide whether `pat` occurs as a contiguous substring of `s`
(over character lists); mirrors JavaScript `String.prototype.includes`
and `indexOf(...) >= 0`. -/
def charsHaveSub : List Char → List Char → Bool
  | s, pat =>
    charsHavePre pat s ||
      (match s with
       | [] => false
       | _ :: t => charsHaveSub t pat)

/-- `s.includes(pat)` / `s.indexOf(pat) >= 0`. -/
def hasSubstr (s pat : String) : Bool :=
  charsHaveSub s.data pat.data

/-- Split a character list at every character satisfying `p`, keeping
empty chunks, as JavaScript `String.prototype.split` with a
single-character-class regex does. -/
def splitChars (p : Char → Bool) : List Char → List (List Char)
  | [] => [[]]
  | c :: rest =>
    let r := splitChars p rest
    if p c then [] :: r
    else
      match r with
      | [] => [[c]]
      | g :: gs => (c :: g) :: gs

/-- A path separator character, as in the source's regex `[\\/]`. -/
def isSep (c : Char) : Bool := c == '/' || c == '\\'

/-- `filePath.split(/[\\/]/).filter((p) => p)`: split on either separator
and discard empty segments. -/
def splitSegs (s : String) : List String :=
  ((splitChars isSep s.data).map (fun cs => String.mk cs)).filter
    (fun t => t ≠ "")

/-- `filename.replace(/^[\\/]+/, "")`: strip leading separators. -/
def normalizeName (s : String) : String :=
  String.mk (s.data.dropWhile isSep)

/-- FPath segments of a filename after normalization; stripping leading
separators does not change the segments, so this equals `splitSegs s`. -/
def nparts (s : String) : FPath :=
  splitSegs (normalizeName s)

/-- Render a path as a string with `/` separators (used only inside
warning and error messages). -/
def pathStr : FPath → String
  | [] => ""
  | a :: rest => rest.foldl (fun acc seg => acc ++ "/" ++ seg) a

/-- A thrown Node.js I/O error, with its `code` and optional `path`
properties. -/
structure JsError where
  code : String
  path : Option String
deriving DecidableEq

/-- The fallback trigger test of `extractAsarWithUnpacked` (line 29):
`err.code === "ENOENT" && err.path && err.path.includes(".unpacked")`.
JavaScript truthiness of `err.path` rejects both a missing `path` and an
empty string. -/
def shouldFallback (e : JsError) : Bool :=
  e.code == "ENOENT" &&
    (match e.path with
     | none => false
     | some p => (p != "") && hasSubstr p ".unpacked")

/-- Outcome of the bulk-extraction step of `extractAsarWithUnpacked`. -/
inductive BulkOutcome where
  | done
  | fellBack
  | threw (e : JsError)
deriving DecidableEq

/-- The try/catch dispatch of `extractAsarWithUnpacked` (lines 24-37),
with the bulk extraction's own result abstracted as a parameter: on
success extraction is complete; on an error matching `shouldFallback`
the manual fallback is entered; any other error is rethrown unchanged. -/
def extractDispatch (bulk : Except JsError Unit) : BulkOutcome :=
  match bulk with
  | .ok _ => .done
  | .error e => if shouldFallback e then .fellBack else .threw e

/-- A node of the asar header tree, as consumed by `getAsarEntryInfo`:
an optional `files` mapping (its presence marks a directory) and an
optional `unpacked` flag. -/
inductive AsarNode where
  | mk (files : Option (List (String × AsarNode))) (unpacked : Option Bool)

/-- The `files` property of a header node. -/
def AsarNode.filesOf : AsarNode → Option (List (String × AsarNode))
  | .mk f _ => f

/-- The `unpacked` property of a header node. -/
def AsarNode.unpackedOf : AsarNode → Option Bool
  | .mk _ u => u

/-- Result of `getAsarEntryInfo`.  The source's `exists` field is named
`found` here because `exists` is a Lean keyword. -/
structure EntryInfo where
  isDir : Bool
  isUnpacked : Bool
  found : Bool
deriving DecidableEq

/-- The walk loop of `getAsarEntryInfo` (lines 59-64): follow the
segments one at a time, returning `{false, false, false}` the moment the
current node has no `files` mapping or the segment is absent from it;
at the end report the terminal node's flags (lines 66-68). -/
def entryWalk (node : AsarNode) : List String → EntryInfo
  | [] =>
    { isDir := node.filesOf.isSome
      isUnpacked := node.unpackedOf == some true
      found := true }
  | seg :: rest =>
    match node.filesOf with
    | none => ⟨false, false, false⟩
    | some children =>
      match children.lookup seg with
      | none => ⟨false, false, false⟩
      | some child => entryWalk child rest

/-- `getAsarEntryInfo(header, filePath)` (lines 52-69): split the path on
any separator, discard empty segments, and walk the header tree.  A pure
function of its arguments: it performs no side effects. -/
def getAsarEntryInfo (header : AsarNode) (filePath : String) : EntryInfo :=
  entryWalk header (splitSegs filePath)

/-- One descent step into a header directory node, used by the spec-side
formulation of the lookup. -/
def descend (node : AsarNode) (seg : String) : Option AsarNode :=
  node.filesOf.bind (List.lookup seg)

/-- The lookup as the spec words it ("walks the tree one segment at a
time; returns exists=false the moment a segment is missing; otherwise
returns the terminal node's directory/external flags"), phrased as a
monadic fold over the segments. -/
def specLookup (header : AsarNode) (filePath : String) : EntryInfo :=
  match (splitSegs filePath).foldlM descend header with
  | none => ⟨false, false, false⟩
  | some node =>
    ⟨node.filesOf.isSome, node.unpackedOf == some true, true⟩

mutual
/-- An entry of the on-disk `.unpacked` directory tree, as seen by
`copyUnpackedFiles`: a regular file, a subdirectory, or an entry whose
`statSync`/copy raises an I/O error with the given code. -/
inductive UnpEntry where
  | file (content : String)
  | dir (children : UnpList)
  | errE (code : String)

/-- A directory listing of the `.unpacked` tree: named entries in
`readdirSync` order. -/
inductive UnpList where
  | nil
  | cons (name : String) (e : UnpEntry) (rest : UnpList)
end

/-- The error codes that `copyUnpackedFiles` catches, warns about and
skips (lines 162-166). -/
def recoverable (code : String) : Bool :=
  code == "ENOENT" || code == "EPERM" || code == "EACCES"

/-- The body of `copyUnpackedFiles(srcDir, destDir)` (lines 140-173),
given as a trace: the filesystem operations it performs (in order), the
warnings it logs, and the error it rethrows, if any.  The operations the
source performs (`ensureDirSync`, `copyFileSync`) depend only on the
source tree, never on the destination state, so the trace applied by
`applyOps` is exactly the source's sequential mutation; operations
already performed before a rethrown error stay in the trace, matching
the partial state the source leaves behind. -/
def copyOpsList (srcP destP : FPath) : UnpList → List FsOp × List String × Option JsError
  | .nil => ([], [], none)
  | .cons name e rest =>
    let srcItem := srcP ++ [name]
    let destItem := destP ++ [name]
    match e with
    | .errE code =>
      if recoverable code then
        let (ops, ws, er) := copyOpsList srcP destP rest
        (ops, ("Warning: Skipping inaccessible file: " ++ pathStr srcItem) :: ws, er)
      else
        ([], [], some ⟨code, some (pathStr srcItem)⟩)
    | .dir children =>
      let (ops₁, ws₁, er₁) := copyOpsList srcItem destItem children
      (match er₁ with
       | some er =>
         (.ensure destItem :: ops₁, ws₁, some er)
       | none =>
         let (ops₂, ws₂, er₂) := copyOpsList srcP destP rest
         (.ensure destItem :: (ops₁ ++ ops₂), ws₁ ++ ws₂, er₂))
    | .file c =>
      let (ops₂, ws₂, er₂) := copyOpsList srcP destP rest
      (.ensure destP :: .write destItem c :: ops₂, ws₂, er₂)

/-- `copyUnpackedFiles` applied to a filesystem: `none` means the source
directory does not exist (`existsSync` is false, line 141), in which
case the call is a no-op. -/
def copyUnpackedModel (unp : Option UnpList) (srcP destP : FPath) (fs : FS) :
    FS × List String × Option JsError :=
  match unp with
  | none => (fs, [], none)
  | some items =>
    let (ops, ws, er) := copyOpsList srcP destP items
    (applyOps ops fs, ws, er)

/-- Result of the external `asar.extractFile` call as the source
distinguishes it (lines 121-125): a buffer, a non-buffer or undefined
result, or a thrown error with a message. -/
inductive ExtractRes where
  | okBuf (content : String)
  | undefRes
  | errRes (msg : String)
deriving DecidableEq

/-- The inputs of manual extraction: the header tree, the
`asar.listPackage` result, and the external `asar.extractFile` codec,
keyed by normalized filename. -/
structure ArchiveM where
  header : AsarNode
  filenames : List String
  extractFile : String → ExtractRes

/-- One iteration of the `extractAsarManually` loop (lines 82-134) for a
single listed filename: normalize the name, look it up in the header;
for a directory entry ensure the destination directory exists; for a
file entry skip it when a regular file is already present, remove a
stale directory, skip externally stored entries with a warning, and
otherwise extract the bytes (writing them only when the codec returns a
buffer, warning when it throws).  Returns the new filesystem and the
warnings emitted. -/
def manualStep (ar : ArchiveM) (destDir : FPath) (fs : FS) (fn : String) :
    FS × List String :=
  let nf := normalizeName fn
  let p := destDir ++ nparts fn
  let info := getAsarEntryInfo ar.header nf
  if info.isDir then
    (fsEnsureDir fs p, [])
  else
    let continueWith : FS → FS × List String := fun fs₁ =>
      if info.isUnpacked then
        (fs₁, ["Warning: Skipping missing unpacked file: " ++ nf])
      else
        match ar.extractFile nf with
        | .okBuf c => (fsWrite (fsEnsureDir fs₁ p.dropLast) p c, [])
        | .undefRes => (fs₁, [])
        | .errRes msg =>
          (fs₁, ["Warning: Failed to extract " ++ nf ++ ": " ++ msg])
    match fs p with
    | some (.file _) => (fs, [])
    | some .dir => continueWith (fsRemove fs p)
    | none => continueWith fs

/-- The filesystem component of one manual-extraction iteration. -/
def stepFS (ar : ArchiveM) (destDir : FPath) (fs : FS) (fn : String) : FS :=
  (manualStep ar destDir fs fn).1

/-- The filesystem after the whole `extractAsarManually` loop. -/
def manualFS (ar : ArchiveM) (destDir : FPath) (l : List String) (fs : FS) : FS :=
  l.foldl (stepFS ar destDir) fs

/-- The warnings emitted by the whole `extractAsarManually` loop. -/
def manualW (ar : ArchiveM) (destDir : FPath) : List String → FS → List String
  | [], _ => []
  | fn :: rest, fs =>
    (manualStep ar destDir fs fn).2 ++
      manualW ar destDir rest (stepFS ar destDir fs fn)

/-- Find a named entry in an unpacked-directory listing. -/
def unpFind (name : String) : UnpList → Option UnpEntry
  | .nil => none
  | .cons n e rest => if n = name then some e else unpFind name rest

/-- Walk the unpacked-directory tree along a relative path. -/
def unpLookup (items : UnpList) : List String → Option UnpEntry
  | [] => none
  | [seg] => unpFind seg items
  | seg :: rest =>
    match unpFind seg items with
    | some (.dir children) => unpLookup children rest
    | _ => none

/-- Render a relative path (for error `path` fields). -/
def relStr : FPath → String
  | [] => ""
  | a :: rest => rest.foldl (fun acc seg => acc ++ "/" ++ seg) a

/-- Modelled from the spec: the external `asar.extractAll` codec is not
part of this repository, so its per-entry action is modelled from spec
section 4.3 (bulk extraction writes every listed entry into the
destination; it fails with an I/O "not found" error whose path lies
under the external-storage directory when a required externally stored
file is missing, and with a different error kind when an entry's bytes
cannot be read).  Directory entries are created, externally stored
entries are copied from the `.unpacked` tree, packed entries come from
the codec. -/
def bulkEntryOps (ar : ArchiveM) (unp : Option UnpList) (destDir : FPath)
    (unpackedDirS : String) (fn : String) : Except JsError (List FsOp) :=
  let nf := normalizeName fn
  let p := destDir ++ nparts fn
  let info := getAsarEntryInfo ar.header nf
  if info.isDir then
    .ok [.ensure p]
  else if info.isUnpacked then
    match unp with
    | none => .error ⟨"ENOENT", some (unpackedDirS ++ "/" ++ relStr (nparts fn))⟩
    | some items =>
      match unpLookup items (nparts fn) with
      | some (.file c) => .ok [.ensure p.dropLast, .write p c]
      | _ => .error ⟨"ENOENT", some (unpackedDirS ++ "/" ++ relStr (nparts fn))⟩
  else
    match ar.extractFile nf with
    | .okBuf c => .ok [.ensure p.dropLast, .write p c]
    | _ => .error ⟨"EIO", some nf⟩

/-- Modelled from the spec (see `bulkEntryOps`): the whole bulk
extraction as a trace, stopping at the first failing entry; the
operations already emitted before the failure remain, matching the
partial state a failing bulk extraction leaves behind. -/
def bulkOps (ar : ArchiveM) (unp : Option UnpList) (destDir : FPath)
    (unpackedDirS : String) : List String → List FsOp × Option JsError
  | [] => ([], none)
  | fn :: rest =>
    match bulkEntryOps ar unp destDir unpackedDirS fn with
    | .error e => ([], some e)
    | .ok ops =>
      let (ops₂, er) := bulkOps ar unp destDir unpackedDirS rest
      (ops ++ ops₂, er)

/-- The inputs of `extractAsarWithUnpacked`: the archive (header,
listing and codec), the on-disk `.unpacked` tree (`none` when the
directory does not exist), the asar file path (used to name the
`.unpacked` sibling) and the destination directory. -/
structure ExtractIn where
  ar : ArchiveM
  unp : Option UnpList
  asarFile : String
  destDir : FPath

/-- The pre-seed stage of `extractAsarWithUnpacked` (lines 16-21): the
copy trace of the `.unpacked` sibling directory. -/
def copyStage (I : ExtractIn) : List FsOp × List String × Option JsError :=
  match I.unp with
  | none => ([], [], none)
  | some items => copyOpsList [I.asarFile ++ ".unpacked"] I.destDir items

/-- The bulk stage of `extractAsarWithUnpacked` (line 25): the
`asar.extractAll` trace over the archive listing. -/
def bulkStage (I : ExtractIn) : List FsOp × Option JsError :=
  bulkOps I.ar I.unp I.destDir (I.asarFile ++ ".unpacked") I.ar.filenames

/-- All state-independent operations `extractAsarWithUnpacked` performs
before a possible manual fallback. -/
def extractOps (I : ExtractIn) : List FsOp :=
  (copyStage I).1 ++ (bulkStage I).1

/-- `extractAsarWithUnpacked(asarFile, destDir)` (lines 15-38): pre-seed
the unpacked directory if it exists, then attempt bulk extraction;
rethrow a failing pre-seed; on a bulk failure matching `shouldFallback`
run `extractAsarManually` with a warning, otherwise rethrow the bulk
error.  Returns the final filesystem, the warnings, and a rethrown
error, if any. -/
def extractM (I : ExtractIn) (fs : FS) : FS × List String × Option JsError :=
  let fs₁ := applyOps (copyStage I).1 fs
  match (copyStage I).2.2 with
  | some e => (fs₁, (copyStage I).2.1, some e)
  | none =>
    let fs₂ := applyOps (bulkStage I).1 fs₁
    match (bulkStage I).2 with
    | none => (fs₂, (copyStage I).2.1, none)
    | some e =>
      if shouldFallback e then
        (manualFS I.ar I.destDir I.ar.filenames fs₂,
         (copyStage I).2.1 ++
           "Warning: Some unpacked files are missing, using fallback extraction..." ::
             manualW I.ar I.destDir I.ar.filenames fs₂,
         none)
      else (fs₂, (copyStage I).2.1, some e)

/-- Errors of `patchDirWithPatch`. -/
inductive PatchErr where
  | cantPatch (name : String)
  | readFail
deriving DecidableEq

/-- `patchDirWithPatch(patch)` (lines 383-400): read the old file, apply
the hunks via the external `diff.applyPatch` (passed as the parameter
`applyPatch`, returning `none` where the library returns `false`); on
failure throw an error naming the old file without touching the
filesystem; on success unlink the old file when the patch renames it,
then write the new file. -/
def patchDirWithPatch (applyPatch : String → Option String) (dirP : FPath)
    (oldName newName : String) (fs : FS) : FS × Option PatchErr :=
  match fs (dirP ++ nparts oldName) with
  | some (.file content) =>
    match applyPatch content with
    | none => (fs, some (.cantPatch oldName))
    | some out =>
      let fs₁ :=
        if oldName ≠ newName then fsRemove fs (dirP ++ nparts oldName) else fs
      (fsWrite fs₁ (dirP ++ nparts newName) out, none)
  | _ => (fs, some .readFail)

/-- The independent "already patched" marker of `patchDirWithPro`
(lines 350-351). -/
def patchedPattern : String :=
  "(delete json.proAccessState,delete json.licenseExpiresAt,json=\x7b...json,licensedFeatures:[\"pro\"]\x7d);"

/-- Errors of `patchDirWithPro`. -/
inductive ProErr where
  | alreadyPatched
  | patternNotFound
  | readFail
deriving DecidableEq

/-- `patchDirWithPro()` (lines 347-372): read the bundle, run the regex
substitution (the external `String.replace` with the compiled pattern,
passed as the parameter `replaceF`); if the text is unchanged, throw
`patternNotFound` when the marker `patchedPattern` is absent from the
original text and `alreadyPatched` when it is present; otherwise
overwrite the bundle with the substituted text. -/
def patchDirWithPro (replaceF : String → String) (bundleP : FPath) (fs : FS) :
    FS × Option ProErr :=
  match fs bundleP with
  | some (.file sourceData) =>
    let sourcePatchedData := replaceF sourceData
    if sourceData = sourcePatchedData then
      if ¬ hasSubstr sourceData patchedPattern then
        (fs, some .patternNotFound)
      else
        (fs, some .alreadyPatched)
    else
      (fsWrite fs bundleP sourcePatchedData, none)
  | _ => (fs, some .readFail)

/-- `IPatcherOptions`: `asar` and `dir` are optional strings (with the
JavaScript convention that an empty string is falsy), `features` is
required. -/
structure PatcherOptions where
  asar : Option String
  dir : Option String
  features : List String

/-- JavaScript truthiness for an optional string. -/
def truthy : Option String → Option String
  | some s => if s = "" then none else some s
  | none => none

/-- `Patcher.findAsar(dir?)` (lines 232-244): with a truthy `dir` the
archive is `path.normalize(dir) + ".asar"`; otherwise platform discovery
runs (its result, which depends on the host filesystem, is the
parameter `platformFound`).  `path.normalize` is external, passed as
`normalizeF`. -/
def findAsarModel (normalizeF : String → String) (platformFound : Option String)
    (dir : Option String) : Option String :=
  match truthy dir with
  | some d => some (normalizeF d ++ ".asar")
  | none => platformFound

/-- Errors of the `Patcher` constructor. -/
inductive CtorErr where
  | noAsar
  | emptyFeatures
deriving DecidableEq

/-- The resolved state of a constructed `Patcher`; the getters `asar`,
`dir` and `features` (lines 277-293) return these fields unchanged. -/
structure PatcherState where
  asarR : String
  dirR : String
  featuresR : List String
deriving DecidableEq

/-- The `Patcher` constructor (lines 261-272): resolve the archive as
`options.asar || Patcher.findAsar(options.dir)` and throw when nothing
resolves; resolve the directory as `options.dir || Patcher.findDir(asar)`
(`findDir` builds on external path functions, passed as `findDirF`);
throw when the features list is empty. -/
def patcherNew (normalizeF : String → String) (platformFound : Option String)
    (findDirF : String → String) (options : PatcherOptions) :
    Except CtorErr PatcherState :=
  match truthy options.asar with
  | some a => patcherFinish findDirF options a
  | none =>
    match findAsarModel normalizeF platformFound options.dir with
    | none => .error .noAsar
    | some a => patcherFinish findDirF options a
where
  /-- The tail of the constructor shared by both resolution paths. -/
  patcherFinish (findDirF : String → String) (options : PatcherOptions)
      (a : String) : Except CtorErr PatcherState :=
    let d := match truthy options.dir with
      | some d => d
      | none => findDirF a
    match options.features with
    | [] => .error .emptyFeatures
    | _ => .ok ⟨a, d, options.features⟩

/-- The destination path of a listed filename. -/
def destOf (destDir : FPath) (fn : String) : FPath := destDir ++ nparts fn

/-- The header lookup of a listed filename, as manual extraction
performs it. -/
def infoOf (ar : ArchiveM) (fn : String) : EntryInfo :=
  getAsarEntryInfo ar.header (normalizeName fn)

/-- Satisfaction of one trace operation by a filesystem: applying the
operation changes nothing. -/
def OpSat (fs : FS) : FsOp → Prop
  | .write p c => fs p = some (.file c)
  | .ensure p => fs p ≠ none

/-- The paths of the ensure operations in a trace. -/
def ensurePaths (ops : List FsOp) : List FPath :=
  ops.filterMap fun op =>
    match op with
    | .ensure p => some p
    | _ => none

/-- Any two writes of the trace to the same path carry the same content
(a well-formedness condition: re-playing such a trace is idempotent). -/
def opsConsistent : List FsOp → Bool
  | [] => true
  | .write p c :: rest =>
    rest.all (fun op =>
      match op with
      | .write q c' => if q = p then c == c' else true
      | .ensure _ => true) && opsConsistent rest
  | .ensure _ :: rest => opsConsistent rest

/-- A filename's entry is settled in `fs`: its manual-extraction
iteration would change nothing.  A directory entry needs its
destination to exist; a file entry must either already be a regular
file, or be absent with no bytes the step would write (externally
stored, or the codec does not return a buffer for it). -/
def StepSettled (ar : ArchiveM) (destDir : FPath) (fn : String) (fs : FS) : Prop :=
  if (infoOf ar fn).isDir then fs (destOf destDir fn) ≠ none
  else
    (∃ c, fs (destOf destDir fn) = some (.file c)) ∨
      (fs (destOf destDir fn) = none ∧
        ((infoOf ar fn).isUnpacked = true ∨
          ∀ c, ar.extractFile (normalizeName fn) ≠ .okBuf c))

theorem hasSubstr_empty_unpacked : hasSubstr "" ".unpacked" = false := rfl

/-- The trigger condition unfolded: the `err.path &&` truthiness guard
is subsumed by the substring check, because an empty string cannot
contain `".unpacked"`. -/
theorem shouldFallback_iff (e : JsError) :
    shouldFallback e = true ↔
      e.code = "ENOENT" ∧ ∃ p, e.path = some p ∧ hasSubstr p ".unpacked" = true := by
  unfold shouldFallback
  cases hp : e.path with
  | none => simp
  | some p =>
    simp only [Bool.and_eq_true, beq_iff_eq, bne_iff_ne, ne_eq]
    constructor
    · rintro ⟨hc, hne, hsub⟩
      exact ⟨hc, p, rfl, hsub⟩
    · rintro ⟨hc, q, hq, hsub⟩
      obtain rfl : q = p := Option.some_injective _ hq.symm
      refine ⟨hc, ?_, hsub⟩
      rintro rfl
      rw [hasSubstr_empty_unpacked] at hsub
      cases hsub

/-- C1: an error thrown by the bulk extraction step of
`extractAsarWithUnpacked` leads to the manual per-entry fallback if and
only if it is an I/O `ENOENT` error whose `path` field contains the
external-storage suffix `".unpacked"`; every other bulk error is
rethrown to the caller unchanged and no fallback is attempted. -/
theorem claim_C1_fallback_trigger (e : JsError) :
    (extractDispatch (.error e) = .fellBack ↔
      e.code = "ENOENT" ∧ ∃ p, e.path = some p ∧ hasSubstr p ".unpacked" = true) ∧
    (¬(e.code = "ENOENT" ∧ ∃ p, e.path = some p ∧ hasSubstr p ".unpacked" = true) →
      extractDispatch (.error e) = .threw e) := by
  unfold extractDispatch
  constructor
  · constructor
    · intro h
      by_cases hf : shouldFallback e = true
      · exact (shouldFallback_iff e).mp hf
      · simp [hf] at h
    · intro h
      simp [(shouldFallback_iff e).mpr h]
  · intro h
    have hf : shouldFallback e ≠ true := fun hf => h ((shouldFallback_iff e).mp hf)
    simp [hf]

/-- Witness for C1: a missing-unpacked `ENOENT` falls back; a
permission error on the same path is rethrown unchanged. -/
theorem claim_C1_fallback_trigger_witness :
    extractDispatch (.error ⟨"ENOENT", some "/opt/app.asar.unpacked/a.node"⟩) = .fellBack ∧
    extractDispatch (.error ⟨"EACCES", some "/opt/app.asar.unpacked/a.node"⟩) =
      .threw ⟨"EACCES", some "/opt/app.asar.unpacked/a.node"⟩ := by
  constructor
  · exact (claim_C1_fallback_trigger ⟨"ENOENT", some "/opt/app.asar.unpacked/a.node"⟩).1.mpr
      ⟨rfl, "/opt/app.asar.unpacked/a.node", rfl, by decide⟩
  · exact (claim_C1_fallback_trigger ⟨"EACCES", some "/opt/app.asar.unpacked/a.node"⟩).2
      (by rintro ⟨h, -⟩; exact absurd h (by decide))

/-- C2: if `diff.applyPatch` rejects the patch (some hunk's context does
not match), `patchDirWithPatch` raises an error naming the old file and
neither the old nor the new file is written: the filesystem is returned
exactly as it was. -/
theorem claim_C2_diff_atomicity (applyPatch : String → Option String) (dirP : FPath)
    (oldName newName : String) (fs : FS) (content : String)
    (hread : fs (dirP ++ nparts oldName) = some (.file content))
    (hfail : applyPatch content = none) :
    patchDirWithPatch applyPatch dirP oldName newName fs =
      (fs, some (.cantPatch oldName)) := by
  simp only [patchDirWithPatch, hread, hfail]

/-- Witness for C2: a two-line file and an applier that fails leave the
file untouched and produce the error naming it. -/
theorem claim_C2_diff_atomicity_witness :
    patchDirWithPatch (fun _ => none) ["app"] "x.js" "y.js"
      (fun q => if q = ["app", "x.js"] then some (.file "let a=1;") else none) =
      ((fun q => if q = ["app", "x.js"] then some (.file "let a=1;") else none),
        some (.cantPatch "x.js")) :=
  claim_C2_diff_atomicity (fun _ => none) ["app"] "x.js" "y.js" _ "let a=1;"
    (by decide) rfl

/-- C3: when the pattern substitution leaves the bundle byte-identical,
`patchDirWithPro` fails with `alreadyPatched` exactly when the
independent marker `patchedPattern` occurs in the original text and
with `patternNotFound` exactly when it is absent, leaving the
filesystem untouched; the bundle is overwritten (with the substituted
text) exactly when the substitution changed the text. -/
theorem claim_C3_pattern_patch (replaceF : String → String) (bundleP : FPath)
    (fs : FS) (s : String) (hread : fs bundleP = some (.file s)) :
    (replaceF s = s →
      (patchDirWithPro replaceF bundleP fs = (fs, some .alreadyPatched) ↔
        hasSubstr s patchedPattern = true) ∧
      (patchDirWithPro replaceF bundleP fs = (fs, some .patternNotFound) ↔
        hasSubstr s patchedPattern = false)) ∧
    (replaceF s ≠ s →
      patchDirWithPro replaceF bundleP fs =
        (fsWrite fs bundleP (replaceF s), none)) := by
  simp only [patchDirWithPro, hread]
  constructor
  · intro heq
    rw [heq, if_pos rfl]
    cases hm : hasSubstr s patchedPattern <;> simp [hm]
  · intro hne
    rw [if_neg (fun h => hne h.symm)]

/-- Witness for C3: an identity substitution on a bundle without the
marker yields `patternNotFound` and leaves the filesystem unchanged. -/
theorem claim_C3_pattern_patch_witness :
    patchDirWithPro (fun t => t) ["d", "b.js"]
      (fun q => if q = ["d", "b.js"] then some (.file "abc") else none) =
      ((fun q => if q = ["d", "b.js"] then some (.file "abc") else none),
        some .patternNotFound) :=
  (((claim_C3_pattern_patch (fun t => t) ["d", "b.js"] _ "abc" (by decide)).1
    rfl).2).mpr (by decide)

theorem entryWalk_step (node : AsarNode) (seg : String) (rest : List String) :
    entryWalk node (seg :: rest) =
      match descend node seg with
      | none => ⟨false, false, false⟩
      | some child => entryWalk child rest := by
  unfold entryWalk descend
  cases hf : node.filesOf with
  | none => rfl
  | some children =>
    cases hl : children.lookup seg with
    | none => simp [hl]
    | some child =>
      simp only [Option.some_bind, hl]
      cases rest <;> rfl

theorem entryWalk_eq_foldlM (segs : List String) :
    ∀ node : AsarNode,
      entryWalk node segs =
        match segs.foldlM descend node with
        | none => ⟨false, false, false⟩
        | some n => ⟨n.filesOf.isSome, n.unpackedOf == some true, true⟩ := by
  induction segs with
  | nil => intro node; rfl
  | cons seg rest ih =>
    intro node
    rw [entryWalk_step, List.foldlM_cons]
    cases hd : descend node seg with
    | none => simp
    | some child => simp [ih child]

/-- C6: the header lookup splits the path on forward- or back-slash
separators, discards empty segments, and walks the tree one segment at
a time, returning `found = false` as soon as a segment is absent and
otherwise the terminal node's flags (`isDir` iff the node has a `files`
mapping, `isUnpacked` iff its `unpacked` flag equals `true`); the
lookup is a pure function and performs no side effects. -/
theorem claim_C6_header_lookup (header : AsarNode) (filePath : String) :
    getAsarEntryInfo header filePath = specLookup header filePath ∧
    splitSegs filePath =
      ((splitChars isSep filePath.data).map (fun cs => String.mk cs)).filter
        (fun t => t ≠ "") :=
  ⟨entryWalk_eq_foldlM (splitSegs filePath) header, rfl⟩

/-- C7: `copyUnpackedFiles` is a no-op (not an error) when the source
directory does not exist; a per-entry failure whose code is `ENOENT`,
`EPERM` or `EACCES` is caught, logged as a warning and skipped while
the remaining entries are still processed; a per-entry failure with any
other code aborts the copy and propagates. -/
theorem claim_C7_copy_unpacked (srcP destP : FPath) (fs : FS) (name code : String)
    (rest : UnpList) :
    copyUnpackedModel none srcP destP fs = (fs, [], none) ∧
    (recoverable code = true →
      copyUnpackedModel (some (.cons name (.errE code) rest)) srcP destP fs =
        ((copyUnpackedModel (some rest) srcP destP fs).1,
          ("Warning: Skipping inaccessible file: " ++ pathStr (srcP ++ [name])) ::
            (copyUnpackedModel (some rest) srcP destP fs).2.1,
          (copyUnpackedModel (some rest) srcP destP fs).2.2)) ∧
    (recoverable code = false →
      copyUnpackedModel (some (.cons name (.errE code) rest)) srcP destP fs =
        (fs, [], some ⟨code, some (pathStr (srcP ++ [name]))⟩)) := by
  refine ⟨rfl, fun hrec => ?_, fun hrec => ?_⟩
  · rcases hc : copyOpsList srcP destP rest with ⟨ops, ws, er⟩
    simp [copyUnpackedModel, copyOpsList, hrec, hc]
  · simp [copyUnpackedModel, copyOpsList, hrec, applyOps]

/-- Witness for C7: a recoverable `EPERM` entry is skipped with a
warning, a fatal `EBUSY` entry aborts with the error carrying its
path. -/
theorem claim_C7_copy_unpacked_witness :
    copyUnpackedModel (some (.cons "x" (.errE "EPERM") .nil)) ["u"] ["d"]
        (fun _ => none) =
      ((fun _ => none), ["Warning: Skipping inaccessible file: u/x"], none) ∧
    copyUnpackedModel (some (.cons "x" (.errE "EBUSY") .nil)) ["u"] ["d"]
        (fun _ => none) =
      ((fun _ => none), [], some ⟨"EBUSY", some "u/x"⟩) := by
  constructor
  · have h := (claim_C7_copy_unpacked ["u"] ["d"] (fun _ => none) "x" "EPERM"
      .nil).2.1 (by decide)
    simpa using h
  · have h := (claim_C7_copy_unpacked ["u"] ["d"] (fun _ => none) "x" "EBUSY"
      .nil).2.2 (by decide)
    simpa using h

/-- C10: the `Patcher` constructor fails when no archive resolves
(neither a truthy explicit `asar` option nor a discovered one), fails
when the features list is empty, and otherwise succeeds with the
`asar`, `dir` and `features` getters returning the resolved archive
path, the resolved directory and the given features list unchanged. -/
theorem claim_C10_constructor (normalizeF : String → String)
    (platformFound : Option String) (findDirF : String → String)
    (options : PatcherOptions) :
    (truthy options.asar = none →
      findAsarModel normalizeF platformFound options.dir = none →
      patcherNew normalizeF platformFound findDirF options = .error .noAsar) ∧
    (options.features = [] →
      ∃ e, patcherNew normalizeF platformFound findDirF options = .error e) ∧
    (∀ a,
      (truthy options.asar = some a ∨
        (truthy options.asar = none ∧
          findAsarModel normalizeF platformFound options.dir = some a)) →
      options.features ≠ [] →
      patcherNew normalizeF platformFound findDirF options =
        .ok ⟨a,
          (match truthy options.dir with
           | some d => d
           | none => findDirF a), options.features⟩) := by
  refine ⟨fun h1 h2 => ?_, fun hfe => ?_, fun a ha hf => ?_⟩
  · simp [patcherNew, h1, h2]
  · cases ht : truthy options.asar with
    | some a =>
      exact ⟨.emptyFeatures, by simp [patcherNew, patcherNew.patcherFinish, ht, hfe]⟩
    | none =>
      cases hfa : findAsarModel normalizeF platformFound options.dir with
      | none => exact ⟨.noAsar, by simp [patcherNew, ht, hfa]⟩
      | some a =>
        exact ⟨.emptyFeatures,
          by simp [patcherNew, patcherNew.patcherFinish, ht, hfa, hfe]⟩
  · cases hfeat : options.features with
    | nil => exact absurd hfeat hf
    | cons x xs =>
      rcases ha with ht | ⟨ht, hfa⟩
      · simp [patcherNew, patcherNew.patcherFinish, ht, hfeat]
      · simp [patcherNew, patcherNew.patcherFinish, ht, hfa, hfeat]

/-- Witness for C10: an explicit asar path with one feature resolves
and the getters return it unchanged. -/
theorem claim_C10_constructor_witness :
    patcherNew (fun s => s) none (fun _ => "/gk/app")
        ⟨some "/gk/app.asar", none, ["pro"]⟩ =
      .ok ⟨"/gk/app.asar", "/gk/app", ["pro"]⟩ := by
  have h := (claim_C10_constructor (fun s => s) none (fun _ => "/gk/app")
    ⟨some "/gk/app.asar", none, ["pro"]⟩).2.2 "/gk/app.asar"
    (Or.inl (by decide)) (by decide)
  exact h

theorem fsWrite_self (fs : FS) (p : FPath) (c : String) :
    fsWrite fs p c p = some (.file c) := by
  simp [fsWrite]

theorem fsWrite_ne (fs : FS) (p q : FPath) (c : String) (h : q ≠ p) :
    fsWrite fs p c q = fs q := by
  simp [fsWrite, h]

theorem fsRemove_self (fs : FS) (p : FPath) : fsRemove fs p p = none := by
  simp [fsRemove]

theorem fsRemove_ne (fs : FS) (p q : FPath) (h : q ≠ p) :
    fsRemove fs p q = fs q := by
  simp [fsRemove, h]

theorem fsEnsureDir_self (fs : FS) (p : FPath) : fsEnsureDir fs p p ≠ none := by
  unfold fsEnsureDir
  cases h : fs p with
  | none => simp
  | some n => simp [h]

theorem fsEnsureDir_ne (fs : FS) (p q : FPath) (h : q ≠ p) :
    fsEnsureDir fs p q = fs q := by
  unfold fsEnsureDir
  cases hp : fs p with
  | none => simp [h]
  | some n => rfl

theorem fsEnsureDir_pres_some (fs : FS) (p q : FPath) (n : FsNode)
    (h : fs q = some n) : fsEnsureDir fs p q = some n := by
  unfold fsEnsureDir
  cases hp : fs p with
  | none =>
    by_cases hq : q = p
    · subst hq; rw [h] at hp; cases hp
    · simp [hq, h]
  | some m => exact h

theorem fsEnsureDir_nonnone (fs : FS) (p q : FPath) (h : fs q ≠ none) :
    fsEnsureDir fs p q ≠ none := by
  unfold fsEnsureDir
  cases hp : fs p with
  | none =>
    by_cases hq : q = p
    · subst hq; simp
    · simpa [hq] using h
  | some m => exact h

theorem manualStep_dir (ar : ArchiveM) (destDir : FPath) (fs : FS) (fn : String)
    (hd : (infoOf ar fn).isDir = true) :
    manualStep ar destDir fs fn = (fsEnsureDir fs (destOf destDir fn), []) := by
  simp only [infoOf] at hd
  simp only [manualStep, hd, if_true]
  rfl

theorem manualStep_file (ar : ArchiveM) (destDir : FPath) (fs : FS) (fn : String)
    (c : String) (hd : (infoOf ar fn).isDir = false)
    (hfs : fs (destOf destDir fn) = some (.file c)) :
    manualStep ar destDir fs fn = (fs, []) := by
  simp only [infoOf] at hd
  simp only [destOf] at hfs
  simp only [manualStep, hd, Bool.false_eq_true, if_false, hfs]

theorem manualStep_dirState (ar : ArchiveM) (destDir : FPath) (fs : FS)
    (fn : String) (hd : (infoOf ar fn).isDir = false)
    (hfs : fs (destOf destDir fn) = some .dir) :
    manualStep ar destDir fs fn =
      manualStep ar destDir (fsRemove fs (destOf destDir fn)) fn := by
  simp only [infoOf] at hd
  simp only [destOf] at hfs ⊢
  have hrm : fsRemove fs (destDir ++ nparts fn) (destDir ++ nparts fn) = none :=
    fsRemove_self fs _
  simp only [manualStep, hd, Bool.false_eq_true, if_false, hfs, hrm]

theorem manualStep_none_unp (ar : ArchiveM) (destDir : FPath) (fs : FS)
    (fn : String) (hd : (infoOf ar fn).isDir = false)
    (hu : (infoOf ar fn).isUnpacked = true)
    (hfs : fs (destOf destDir fn) = none) :
    manualStep ar destDir fs fn =
      (fs, ["Warning: Skipping missing unpacked file: " ++ normalizeName fn]) := by
  simp only [infoOf] at hd hu
  simp only [destOf] at hfs
  simp only [manualStep, hd, Bool.false_eq_true, if_false, hfs, hu, if_true]

theorem manualStep_none_okBuf (ar : ArchiveM) (destDir : FPath) (fs : FS)
    (fn : String) (c : String) (hd : (infoOf ar fn).isDir = false)
    (hu : (infoOf ar fn).isUnpacked = false)
    (hfs : fs (destOf destDir fn) = none)
    (hx : ar.extractFile (normalizeName fn) = .okBuf c) :
    manualStep ar destDir fs fn =
      (fsWrite (fsEnsureDir fs (destOf destDir fn).dropLast)
        (destOf destDir fn) c, []) := by
  simp only [infoOf] at hd hu
  simp only [destOf] at hfs ⊢
  simp only [manualStep, hd, Bool.false_eq_true, if_false, hfs, hu, hx]

theorem manualStep_none_undef (ar : ArchiveM) (destDir : FPath) (fs : FS)
    (fn : String) (hd : (infoOf ar fn).isDir = false)
    (hu : (infoOf ar fn).isUnpacked = false)
    (hfs : fs (destOf destDir fn) = none)
    (hx : ar.extractFile (normalizeName fn) = .undefRes) :
    manualStep ar destDir fs fn = (fs, []) := by
  simp only [infoOf] at hd hu
  simp only [destOf] at hfs
  simp only [manualStep, hd, Bool.false_eq_true, if_false, hfs, hu, hx]

theorem manualStep_none_err (ar : ArchiveM) (destDir : FPath) (fs : FS)
    (fn : String) (msg : String) (hd : (infoOf ar fn).isDir = false)
    (hu : (infoOf ar fn).isUnpacked = false)
    (hfs : fs (destOf destDir fn) = none)
    (hx : ar.extractFile (normalizeName fn) = .errRes msg) :
    manualStep ar destDir fs fn =
      (fs, ["Warning: Failed to extract " ++ normalizeName fn ++ ": " ++ msg]) := by
  simp only [infoOf] at hd hu
  simp only [destOf] at hfs
  simp only [manualStep, hd, Bool.false_eq_true, if_false, hfs, hu, hx]

/-- C4: an externally stored file entry with no regular file at its
destination is skipped with exactly one warning, the loop continues
with the remaining entries, and the step never throws (it is a total
function of the state by construction). -/
theorem claim_C4_missing_external (ar : ArchiveM) (destDir : FPath) (fs : FS)
    (fn : String) (l₁ l₂ : List String)
    (hd : (infoOf ar fn).isDir = false)
    (hu : (infoOf ar fn).isUnpacked = true)
    (hnf : ∀ c, fs (destOf destDir fn) ≠ some (.file c)) :
    (manualStep ar destDir fs fn).2 =
      ["Warning: Skipping missing unpacked file: " ++ normalizeName fn] ∧
    (manualStep ar destDir fs fn).1 =
      (if fs (destOf destDir fn) = some .dir
       then fsRemove fs (destOf destDir fn) else fs) ∧
    manualFS ar destDir (l₁ ++ fn :: l₂) fs =
      manualFS ar destDir l₂ (stepFS ar destDir (manualFS ar destDir l₁ fs) fn) := by
  have hstep : manualStep ar destDir fs fn =
      ((if fs (destOf destDir fn) = some .dir
        then fsRemove fs (destOf destDir fn) else fs),
       ["Warning: Skipping missing unpacked file: " ++ normalizeName fn]) := by
    cases hfs : fs (destOf destDir fn) with
    | none =>
      rw [manualStep_none_unp ar destDir fs fn hd hu hfs]
      simp [hfs]
    | some n =>
      cases n with
      | file c => exact absurd hfs (hnf c)
      | dir =>
        rw [manualStep_dirState ar destDir fs fn hd hfs,
          manualStep_none_unp ar destDir _ fn hd hu (fsRemove_self fs _)]
        simp [hfs]
  refine ⟨by rw [hstep], by rw [hstep], ?_⟩
  simp [manualFS, List.foldl_append]

/-- Witness for C4: a one-entry archive whose only file is flagged
unpacked, an empty destination: the entry is skipped with one warning
and the filesystem is unchanged. -/
theorem claim_C4_missing_external_witness :
    (manualStep ⟨.mk (some [("a", .mk none (some true))]) none, ["a"],
        fun _ => .undefRes⟩ ["d"] (fun _ => none) "a").2 =
      ["Warning: Skipping missing unpacked file: a"] ∧
    (manualStep ⟨.mk (some [("a", .mk none (some true))]) none, ["a"],
        fun _ => .undefRes⟩ ["d"] (fun _ => none) "a").1 =
      (if (fun _ => none : FS) (destOf ["d"] "a") = some .dir
       then fsRemove (fun _ => none) (destOf ["d"] "a") else (fun _ => none)) ∧
    manualFS ⟨.mk (some [("a", .mk none (some true))]) none, ["a"],
        fun _ => .undefRes⟩ ["d"] ([] ++ "a" :: []) (fun _ => none) =
      manualFS ⟨.mk (some [("a", .mk none (some true))]) none, ["a"],
        fun _ => .undefRes⟩ ["d"] []
        (stepFS ⟨.mk (some [("a", .mk none (some true))]) none, ["a"],
          fun _ => .undefRes⟩ ["d"]
          (manualFS ⟨.mk (some [("a", .mk none (some true))]) none, ["a"],
            fun _ => .undefRes⟩ ["d"] [] (fun _ => none)) "a") :=
  claim_C4_missing_external _ ["d"] _ "a" [] [] (by decide) (by decide)
    (fun c hc => Option.noConfusion hc)

/-- C8: for a file entry of manual extraction, an existing regular file
at the destination means the entry is skipped with no write; an
existing directory where the archive declares a file is removed before
the entry is processed further (the step behaves exactly as if the
directory had already been removed), and for a non-external entry whose
bytes the codec returns, the file is then written. -/
theorem claim_C8_conflict_resolution (ar : ArchiveM) (destDir : FPath) (fs : FS)
    (fn : String) (hd : (infoOf ar fn).isDir = false) :
    (∀ c, fs (destOf destDir fn) = some (.file c) →
      manualStep ar destDir fs fn = (fs, [])) ∧
    (fs (destOf destDir fn) = some .dir →
      manualStep ar destDir fs fn =
        manualStep ar destDir (fsRemove fs (destOf destDir fn)) fn ∧
      ((infoOf ar fn).isUnpacked = false →
        ∀ c, ar.extractFile (normalizeName fn) = .okBuf c →
          (manualStep ar destDir fs fn).1 (destOf destDir fn) = some (.file c))) := by
  refine ⟨fun c hfs => manualStep_file ar destDir fs fn c hd hfs, fun hdir => ?_⟩
  refine ⟨manualStep_dirState ar destDir fs fn hd hdir, fun hu c hx => ?_⟩
  rw [manualStep_dirState ar destDir fs fn hd hdir,
    manualStep_none_okBuf ar destDir _ fn c hd hu (fsRemove_self fs _) hx]
  exact fsWrite_self _ _ _

/-- Witness for C8: a stale directory at the destination of a packed
file entry is removed and the entry's bytes are written. -/
theorem claim_C8_conflict_resolution_witness :
    (manualStep ⟨.mk (some [("a", .mk none none)]) none, ["a"],
        fun _ => .okBuf "bytes"⟩ ["d"]
        (fun q => if q = ["d", "a"] then some .dir else none) "a").1
      (destOf ["d"] "a") = some (.file "bytes") :=
  ((claim_C8_conflict_resolution ⟨.mk (some [("a", .mk none none)]) none, ["a"],
      fun _ => .okBuf "bytes"⟩ ["d"]
      (fun q => if q = ["d", "a"] then some .dir else none) "a"
      (by decide)).2 (by decide)).2 (by decide) "bytes" rfl

theorem manualStep_none_dropped (ar : ArchiveM) (destDir : FPath) (fs : FS)
    (fn : String) (hd : (infoOf ar fn).isDir = false)
    (hfs : fs (destOf destDir fn) = none) :
    (manualStep ar destDir fs fn).1 (destOf destDir fn) = none →
    (manualStep ar destDir fs fn).2 ≠ [] ∨
      ar.extractFile (normalizeName fn) = .undefRes := by
  intro hnone
  cases hu : (infoOf ar fn).isUnpacked with
  | true =>
    rw [manualStep_none_unp ar destDir fs fn hd hu hfs]
    exact Or.inl (by simp)
  | false =>
    cases hx : ar.extractFile (normalizeName fn) with
    | okBuf c =>
      rw [manualStep_none_okBuf ar destDir fs fn c hd hu hfs hx] at hnone
      exact absurd hnone (by simp [fsWrite_self])
    | undefRes => exact Or.inr rfl
    | errRes msg =>
      rw [manualStep_none_err ar destDir fs fn msg hd hu hfs hx]
      exact Or.inl (by simp)

/-- C9 (amended): an entry whose bytes end up not written during manual
extraction always produces a warning, unless the codec returned a
non-buffer (undefined) result, in which case the entry is skipped with
no warning at all. -/
theorem claim_C9_amended_warning (ar : ArchiveM) (destDir : FPath) (fs : FS)
    (fn : String) :
    (manualStep ar destDir fs fn).1 (destOf destDir fn) = none →
    (manualStep ar destDir fs fn).2 ≠ [] ∨
      ar.extractFile (normalizeName fn) = .undefRes := by
  intro hnone
  cases hd : (infoOf ar fn).isDir with
  | true =>
    rw [manualStep_dir ar destDir fs fn hd] at hnone
    exact absurd hnone (fsEnsureDir_self fs _)
  | false =>
    cases hfs : fs (destOf destDir fn) with
    | none => exact manualStep_none_dropped ar destDir fs fn hd hfs hnone
    | some n =>
      cases n with
      | file c =>
        simp only [manualStep_file ar destDir fs fn c hd hfs, hfs] at hnone
        cases hnone
      | dir =>
        rw [manualStep_dirState ar destDir fs fn hd hfs] at hnone ⊢
        exact manualStep_none_dropped ar destDir _ fn hd (fsRemove_self fs _) hnone

/-- Witness for C9 (amended): a packed entry whose codec result is an
error is dropped, and a warning is indeed emitted. -/
theorem claim_C9_amended_warning_witness :
    (manualStep ⟨.mk (some [("a", .mk none none)]) none, ["a"],
        fun _ => .errRes "corrupt"⟩ ["d"] (fun _ => none) "a").2 ≠ [] ∨
      (fun _ => ExtractRes.errRes "corrupt") (normalizeName "a") = .undefRes :=
  claim_C9_amended_warning ⟨.mk (some [("a", .mk none none)]) none, ["a"],
    fun _ => .errRes "corrupt"⟩ ["d"] (fun _ => none) "a" (by decide)

/-- Counterexample to C9 as stated: with a codec returning a non-buffer
(undefined) result for a packed file entry, the entry is dropped (its
destination stays empty, it is neither a directory entry nor already
satisfied) while the warning list stays empty: the entry is dropped
silently. -/
theorem claim_C9_counterexample :
    manualStep ⟨.mk (some [("a", .mk none none)]) none, ["a"],
        fun _ => .undefRes⟩ ["d"] (fun _ => none) "a" =
      ((fun _ => none), []) ∧
    (infoOf ⟨.mk (some [("a", .mk none none)]) none, ["a"],
        fun _ => .undefRes⟩ "a").isDir = false ∧
    (fun _ => (none : Option FsNode)) (destOf ["d"] "a") = none := by
  refine ⟨?_, by decide, rfl⟩
  rw [manualStep_none_undef _ ["d"] _ "a" (by decide) (by decide) rfl rfl]

theorem applyOps_append (a b : List FsOp) (fs : FS) :
    applyOps (a ++ b) fs = applyOps b (applyOps a fs) :=
  List.foldl_append ..

theorem applyOps_cons (op : FsOp) (ops : List FsOp) (fs : FS) :
    applyOps (op :: ops) fs = applyOps ops (applyOp fs op) := rfl

theorem applyOp_nonnone (fs : FS) (op : FsOp) (q : FPath) (h : fs q ≠ none) :
    applyOp fs op q ≠ none := by
  cases op with
  | write p c =>
    by_cases hq : q = p
    · subst hq; simp [applyOp, fsWrite]
    · rw [applyOp, fsWrite_ne fs p q c hq]; exact h
  | ensure p =>
    by_cases hq : q = p
    · subst hq; exact fsEnsureDir_self fs q
    · rw [applyOp, fsEnsureDir_ne fs p q hq]; exact h

theorem applyOps_nonnone (ops : List FsOp) :
    ∀ fs : FS, ∀ q : FPath, fs q ≠ none → applyOps ops fs q ≠ none := by
  induction ops with
  | nil => exact fun fs q h => h
  | cons op rest ih =>
    intro fs q h
    rw [applyOps_cons]
    exact ih (applyOp fs op) q (applyOp_nonnone fs op q h)

theorem applyOp_keep_file (fs : FS) (op : FsOp) (q : FPath) (c : String)
    (hop : ∀ c', op = .write q c' → c' = c)
    (h : fs q = some (.file c)) : applyOp fs op q = some (.file c) := by
  cases op with
  | write p c' =>
    by_cases hq : q = p
    · subst hq
      rw [hop c' rfl, applyOp]
      exact fsWrite_self fs q c
    · rw [applyOp, fsWrite_ne fs p q c' hq]; exact h
  | ensure p => exact fsEnsureDir_pres_some fs p q _ h

theorem applyOps_keep_file (ops : List FsOp) :
    ∀ fs : FS, ∀ q : FPath, ∀ c : String,
      (∀ c', FsOp.write q c' ∈ ops → c' = c) →
      fs q = some (.file c) → applyOps ops fs q = some (.file c) := by
  induction ops with
  | nil => exact fun fs q c _ h => h
  | cons op rest ih =>
    intro fs q c hops h
    rw [applyOps_cons]
    refine ih (applyOp fs op) q c (fun c' hmem => hops c' (List.mem_cons_of_mem op hmem)) ?_
    exact applyOp_keep_file fs op q c
      (fun c' hop => hops c' (hop ▸ List.mem_cons_self _ _)) h

theorem fsEnsureDir_of_nonnone (fs : FS) (p : FPath) (h : fs p ≠ none) :
    fsEnsureDir fs p = fs := by
  unfold fsEnsureDir
  cases hp : fs p with
  | none => exact absurd hp h
  | some n => rfl

theorem opSat_apply_id (fs : FS) (op : FsOp) (h : OpSat fs op) :
    applyOp fs op = fs := by
  cases op with
  | write p c =>
    funext q
    by_cases hq : q = p
    · subst hq
      rw [applyOp, fsWrite_self, (h : fs q = some (.file c))]
    · exact fsWrite_ne fs p q c hq
  | ensure p => exact fsEnsureDir_of_nonnone fs p h

theorem opsSat_apply_id (ops : List FsOp) :
    ∀ fs : FS, (∀ op ∈ ops, OpSat fs op) → applyOps ops fs = fs := by
  induction ops with
  | nil => exact fun fs _ => rfl
  | cons op rest ih =>
    intro fs h
    rw [applyOps_cons, opSat_apply_id fs op (h op (List.mem_cons_self _ _))]
    exact ih fs (fun op' hmem => h op' (List.mem_cons_of_mem op hmem))

theorem opsConsistent_tail (op : FsOp) (ops : List FsOp)
    (h : opsConsistent (op :: ops) = true) : opsConsistent ops = true := by
  cases op with
  | write p c =>
    simp only [opsConsistent, Bool.and_eq_true] at h
    exact h.2
  | ensure p => exact h

theorem opsConsistent_head_write (p : FPath) (c : String) (ops : List FsOp)
    (h : opsConsistent (.write p c :: ops) = true) :
    ∀ c', FsOp.write p c' ∈ ops → c' = c := by
  intro c' hmem
  simp only [opsConsistent, Bool.and_eq_true, List.all_eq_true] at h
  have h2 := h.1 _ hmem
  simp at h2
  exact h2.symm

theorem applyOps_post (ops : List FsOp) :
    ∀ fs : FS, opsConsistent ops = true →
      ∀ op ∈ ops, OpSat (applyOps ops fs) op := by
  induction ops with
  | nil => intro fs _ op hmem; cases hmem
  | cons op rest ih =>
    intro fs hcons op' hmem
    rw [applyOps_cons]
    rcases List.mem_cons.mp hmem with rfl | hmem'
    · cases op' with
      | write p c =>
        refine applyOps_keep_file rest (applyOp fs (.write p c)) p c
          (opsConsistent_head_write p c rest hcons) ?_
        exact fsWrite_self fs p c
      | ensure p =>
        refine applyOps_nonnone rest (applyOp fs (.ensure p)) p ?_
        exact fsEnsureDir_self fs p
    · exact ih (applyOp fs op) (opsConsistent_tail op rest hcons) op' hmem'

theorem stepFS_eq_off_base (ar : ArchiveM) (destDir : FPath) (fs : FS)
    (fn : String) (q : FPath) (hd : (infoOf ar fn).isDir = false)
    (hfs : fs (destOf destDir fn) = none)
    (h1 : q ≠ destOf destDir fn) (h2 : q ≠ (destOf destDir fn).dropLast) :
    stepFS ar destDir fs fn q = fs q := by
  cases hu : (infoOf ar fn).isUnpacked with
  | true => simp only [stepFS, manualStep_none_unp ar destDir fs fn hd hu hfs]
  | false =>
    cases hx : ar.extractFile (normalizeName fn) with
    | okBuf c =>
      simp only [stepFS, manualStep_none_okBuf ar destDir fs fn c hd hu hfs hx]
      rw [fsWrite_ne _ _ _ _ h1, fsEnsureDir_ne _ _ _ h2]
    | undefRes =>
      simp only [stepFS, manualStep_none_undef ar destDir fs fn hd hu hfs hx]
    | errRes m =>
      simp only [stepFS, manualStep_none_err ar destDir fs fn m hd hu hfs hx]

theorem stepFS_eq_off (ar : ArchiveM) (destDir : FPath) (fs : FS) (fn : String)
    (q : FPath) (h1 : q ≠ destOf destDir fn)
    (h2 : q ≠ (destOf destDir fn).dropLast) :
    stepFS ar destDir fs fn q = fs q := by
  cases hd : (infoOf ar fn).isDir with
  | true =>
    simp only [stepFS, manualStep_dir ar destDir fs fn hd]
    exact fsEnsureDir_ne fs _ q h1
  | false =>
    cases hfs : fs (destOf destDir fn) with
    | none => exact stepFS_eq_off_base ar destDir fs fn q hd hfs h1 h2
    | some n =>
      cases n with
      | file c => simp only [stepFS, manualStep_file ar destDir fs fn c hd hfs]
      | dir =>
        simp only [stepFS, manualStep_dirState ar destDir fs fn hd hfs]
        have hstep := stepFS_eq_off_base ar destDir
          (fsRemove fs (destOf destDir fn)) fn q hd (fsRemove_self fs _) h1 h2
        simp only [stepFS] at hstep
        rw [hstep, fsRemove_ne _ _ _ h1]

theorem stepFS_pres_some_base (ar : ArchiveM) (destDir : FPath) (fs : FS)
    (fn : String) (q : FPath) (n : FsNode) (hd : (infoOf ar fn).isDir = false)
    (hfs : fs (destOf destDir fn) = none) (h1 : q ≠ destOf destDir fn)
    (h : fs q = some n) : stepFS ar destDir fs fn q = some n := by
  cases hu : (infoOf ar fn).isUnpacked with
  | true =>
    simp only [stepFS, manualStep_none_unp ar destDir fs fn hd hu hfs]
    exact h
  | false =>
    cases hx : ar.extractFile (normalizeName fn) with
    | okBuf c =>
      simp only [stepFS, manualStep_none_okBuf ar destDir fs fn c hd hu hfs hx]
      rw [fsWrite_ne _ _ _ _ h1]
      exact fsEnsureDir_pres_some _ _ _ _ h
    | undefRes =>
      simp only [stepFS, manualStep_none_undef ar destDir fs fn hd hu hfs hx]
      exact h
    | errRes m =>
      simp only [stepFS, manualStep_none_err ar destDir fs fn m hd hu hfs hx]
      exact h

theorem stepFS_pres_some_ne (ar : ArchiveM) (destDir : FPath) (fs : FS)
    (fn : String) (q : FPath) (n : FsNode) (h1 : q ≠ destOf destDir fn)
    (h : fs q = some n) : stepFS ar destDir fs fn q = some n := by
  cases hd : (infoOf ar fn).isDir with
  | true =>
    simp only [stepFS, manualStep_dir ar destDir fs fn hd]
    exact fsEnsureDir_pres_some _ _ _ _ h
  | false =>
    cases hfs : fs (destOf destDir fn) with
    | none => exact stepFS_pres_some_base ar destDir fs fn q n hd hfs h1 h
    | some m =>
      cases m with
      | file c =>
        simp only [stepFS, manualStep_file ar destDir fs fn c hd hfs]
        exact h
      | dir =>
        simp only [stepFS, manualStep_dirState ar destDir fs fn hd hfs]
        have hstep := stepFS_pres_some_base ar destDir
          (fsRemove fs (destOf destDir fn)) fn q n hd (fsRemove_self fs _) h1
          (by rw [fsRemove_ne _ _ _ h1]; exact h)
        simp only [stepFS] at hstep
        exact hstep

theorem stepFS_pres_file (ar : ArchiveM) (destDir : FPath) (fs : FS)
    (fn : String) (q : FPath) (c : String) (h : fs q = some (.file c)) :
    stepFS ar destDir fs fn q = some (.file c) := by
  by_cases h1 : q = destOf destDir fn
  · subst h1
    cases hd : (infoOf ar fn).isDir with
    | true =>
      simp only [stepFS, manualStep_dir ar destDir fs fn hd]
      exact fsEnsureDir_pres_some _ _ _ _ h
    | false =>
      simp only [stepFS, manualStep_file ar destDir fs fn c hd h]
      exact h
  · exact stepFS_pres_some_ne ar destDir fs fn q _ h1 h

theorem stepFS_pres_nonnone (ar : ArchiveM) (destDir : FPath) (fs : FS)
    (fn : String) (q : FPath)
    (hq : (infoOf ar fn).isDir = false → q ≠ destOf destDir fn)
    (h : fs q ≠ none) : stepFS ar destDir fs fn q ≠ none := by
  cases hn : fs q with
  | none => exact absurd hn h
  | some n =>
    cases hd : (infoOf ar fn).isDir with
    | true =>
      simp only [stepFS, manualStep_dir ar destDir fs fn hd]
      exact fsEnsureDir_nonnone _ _ _ h
    | false =>
      rw [stepFS_pres_some_ne ar destDir fs fn q n (hq hd) hn]
      exact Option.noConfusion

theorem stepSettled_dir (ar : ArchiveM) (destDir : FPath) (fn : String) (fs : FS)
    (hd : (infoOf ar fn).isDir = true) :
    StepSettled ar destDir fn fs ↔ fs (destOf destDir fn) ≠ none := by
  unfold StepSettled
  rw [hd]
  simp

theorem stepSettled_file (ar : ArchiveM) (destDir : FPath) (fn : String) (fs : FS)
    (hd : (infoOf ar fn).isDir = false) :
    StepSettled ar destDir fn fs ↔
      ((∃ c, fs (destOf destDir fn) = some (.file c)) ∨
        (fs (destOf destDir fn) = none ∧
          ((infoOf ar fn).isUnpacked = true ∨
            ∀ c, ar.extractFile (normalizeName fn) ≠ .okBuf c))) := by
  unfold StepSettled
  rw [hd]
  simp

theorem stepFS_settles_base (ar : ArchiveM) (destDir : FPath) (fs : FS)
    (fn : String) (hd : (infoOf ar fn).isDir = false)
    (hfs : fs (destOf destDir fn) = none) :
    StepSettled ar destDir fn (stepFS ar destDir fs fn) := by
  rw [stepSettled_file ar destDir fn _ hd]
  cases hu : (infoOf ar fn).isUnpacked with
  | true =>
    refine Or.inr ⟨?_, Or.inl rfl⟩
    simp only [stepFS, manualStep_none_unp ar destDir fs fn hd hu hfs]
    exact hfs
  | false =>
    cases hx : ar.extractFile (normalizeName fn) with
    | okBuf c =>
      refine Or.inl ⟨c, ?_⟩
      simp only [stepFS, manualStep_none_okBuf ar destDir fs fn c hd hu hfs hx]
      exact fsWrite_self _ _ _
    | undefRes =>
      refine Or.inr ⟨?_, Or.inr fun c hc => by cases hc⟩
      simp only [stepFS, manualStep_none_undef ar destDir fs fn hd hu hfs hx]
      exact hfs
    | errRes m =>
      refine Or.inr ⟨?_, Or.inr fun c hc => by cases hc⟩
      simp only [stepFS, manualStep_none_err ar destDir fs fn m hd hu hfs hx]
      exact hfs

theorem stepFS_settles (ar : ArchiveM) (destDir : FPath) (fs : FS) (fn : String) :
    StepSettled ar destDir fn (stepFS ar destDir fs fn) := by
  cases hd : (infoOf ar fn).isDir with
  | true =>
    rw [stepSettled_dir ar destDir fn _ hd]
    simp only [stepFS, manualStep_dir ar destDir fs fn hd]
    exact fsEnsureDir_self _ _
  | false =>
    cases hfs : fs (destOf destDir fn) with
    | none => exact stepFS_settles_base ar destDir fs fn hd hfs
    | some n =>
      cases n with
      | file c =>
        rw [stepSettled_file ar destDir fn _ hd]
        refine Or.inl ⟨c, ?_⟩
        simp only [stepFS, manualStep_file ar destDir fs fn c hd hfs]
        exact hfs
      | dir =>
        have hstep : stepFS ar destDir fs fn =
            stepFS ar destDir (fsRemove fs (destOf destDir fn)) fn := by
          simp only [stepFS, manualStep_dirState ar destDir fs fn hd hfs]
        rw [hstep]
        exact stepFS_settles_base ar destDir _ fn hd (fsRemove_self fs _)

theorem stepSettled_id (ar : ArchiveM) (destDir : FPath) (fn : String) (fs : FS)
    (h : StepSettled ar destDir fn fs) : stepFS ar destDir fs fn = fs := by
  cases hd : (infoOf ar fn).isDir with
  | true =>
    rw [stepSettled_dir ar destDir fn _ hd] at h
    simp only [stepFS, manualStep_dir ar destDir fs fn hd]
    exact fsEnsureDir_of_nonnone _ _ h
  | false =>
    rw [stepSettled_file ar destDir fn _ hd] at h
    rcases h with ⟨c, hc⟩ | ⟨hnone, hrest⟩
    · simp only [stepFS, manualStep_file ar destDir fs fn c hd hc]
    · cases hu : (infoOf ar fn).isUnpacked with
      | true => simp only [stepFS, manualStep_none_unp ar destDir fs fn hd hu hnone]
      | false =>
        rcases hrest with hu2 | hnotok
        · rw [hu] at hu2; cases hu2
        · cases hx : ar.extractFile (normalizeName fn) with
          | okBuf c => exact absurd hx (hnotok c)
          | undefRes =>
            simp only [stepFS, manualStep_none_undef ar destDir fs fn hd hu hnone hx]
          | errRes m =>
            simp only [stepFS, manualStep_none_err ar destDir fs fn m hd hu hnone hx]

theorem stepFS_pres_settled (ar : ArchiveM) (destDir : FPath) (fs : FS)
    (fn fn' : String) (hne : nparts fn' ≠ nparts fn) (hnemp : nparts fn' ≠ [])
    (hpar : (infoOf ar fn).isDir = false → (nparts fn').dropLast ≠ nparts fn)
    (h : StepSettled ar destDir fn fs) :
    StepSettled ar destDir fn (stepFS ar destDir fs fn') := by
  have hdd : destOf destDir fn ≠ destOf destDir fn' := by
    intro he
    simp only [destOf] at he
    exact hne (List.append_cancel_left he).symm
  cases hd : (infoOf ar fn).isDir with
  | true =>
    rw [stepSettled_dir ar destDir fn _ hd] at h ⊢
    exact stepFS_pres_nonnone ar destDir fs fn' _ (fun _ => hdd) h
  | false =>
    rw [stepSettled_file ar destDir fn _ hd] at h ⊢
    rcases h with ⟨c, hc⟩ | ⟨hnone, hrest⟩
    · exact Or.inl ⟨c, stepFS_pres_file ar destDir fs fn' _ c hc⟩
    · refine Or.inr ⟨?_, hrest⟩
      rw [stepFS_eq_off ar destDir fs fn' (destOf destDir fn) hdd ?_]
      · exact hnone
      · intro he
        simp only [destOf] at he
        rw [List.dropLast_append_of_ne_nil _ hnemp] at he
        exact hpar hd (List.append_cancel_left he).symm

theorem manualFS_cons (ar : ArchiveM) (destDir : FPath) (fn : String)
    (l : List String) (fs : FS) :
    manualFS ar destDir (fn :: l) fs =
      manualFS ar destDir l (stepFS ar destDir fs fn) := rfl

theorem manualFS_append (ar : ArchiveM) (destDir : FPath) (l₁ l₂ : List String)
    (fs : FS) :
    manualFS ar destDir (l₁ ++ l₂) fs =
      manualFS ar destDir l₂ (manualFS ar destDir l₁ fs) :=
  List.foldl_append ..

theorem manualFS_pres_file (ar : ArchiveM) (destDir : FPath) :
    ∀ (l : List String) (fs : FS) (q : FPath) (c : String),
      fs q = some (.file c) → manualFS ar destDir l fs q = some (.file c) := by
  intro l
  induction l with
  | nil => exact fun fs q c h => h
  | cons fn rest ih =>
    intro fs q c h
    rw [manualFS_cons]
    exact ih _ q c (stepFS_pres_file ar destDir fs fn q c h)

theorem manualFS_pres_nonnone (ar : ArchiveM) (destDir : FPath) :
    ∀ (l : List String) (q : FPath),
      (∀ fn ∈ l, (infoOf ar fn).isDir = false → q ≠ destOf destDir fn) →
      ∀ fs : FS, fs q ≠ none → manualFS ar destDir l fs q ≠ none := by
  intro l
  induction l with
  | nil => exact fun _ _ fs h => h
  | cons fn rest ih =>
    intro q hq fs h
    rw [manualFS_cons]
    exact ih q (fun fn' hm => hq fn' (List.mem_cons_of_mem fn hm)) _
      (stepFS_pres_nonnone ar destDir fs fn q (hq fn (List.mem_cons_self _ _)) h)

theorem manualFS_pres_settled (ar : ArchiveM) (destDir : FPath) (fn : String) :
    ∀ l : List String,
      (∀ fn' ∈ l, nparts fn' ≠ nparts fn ∧ nparts fn' ≠ [] ∧
        ((infoOf ar fn).isDir = false → (nparts fn').dropLast ≠ nparts fn)) →
      ∀ fs : FS, StepSettled ar destDir fn fs →
        StepSettled ar destDir fn (manualFS ar destDir l fs) := by
  intro l
  induction l with
  | nil => exact fun _ fs h => h
  | cons a rest ih =>
    intro hc fs h
    rw [manualFS_cons]
    refine ih (fun fn' hm => hc fn' (List.mem_cons_of_mem a hm)) _ ?_
    obtain ⟨h1, h2, h3⟩ := hc a (List.mem_cons_self _ _)
    exact stepFS_pres_settled ar destDir fs fn a h1 h2 h3 h

theorem manualFS_settles_mem (ar : ArchiveM) (destDir : FPath) (l : List String)
    (H1 : (l.map nparts).Nodup)
    (H2 : ∀ fn ∈ l, nparts fn ≠ [])
    (H3 : ∀ fn ∈ l, ∀ fn' ∈ l,
      (infoOf ar fn).isDir = false → (nparts fn').dropLast ≠ nparts fn)
    (fn : String) (hmem : fn ∈ l) (fs : FS) :
    StepSettled ar destDir fn (manualFS ar destDir l fs) := by
  obtain ⟨l₁, l₂, rfl⟩ := List.append_of_mem hmem
  rw [manualFS_append, manualFS_cons]
  refine manualFS_pres_settled ar destDir fn l₂ ?_ _ (stepFS_settles ar destDir _ fn)
  intro fn' hm
  have hmem' : fn' ∈ l₁ ++ fn :: l₂ := by simp [hm]
  have hmemf : fn ∈ l₁ ++ fn :: l₂ := by simp
  refine ⟨?_, H2 fn' hmem', fun hdf => H3 fn hmemf fn' hmem' hdf⟩
  rw [List.map_append, List.map_cons] at H1
  have hnotin : nparts fn ∉ l₂.map nparts :=
    (List.nodup_cons.mp H1.of_append_right).1
  intro he
  exact hnotin (he ▸ List.mem_map_of_mem nparts hm)

theorem manualFS_id (ar : ArchiveM) (destDir : FPath) :
    ∀ (l : List String) (fs : FS),
      (∀ fn ∈ l, StepSettled ar destDir fn fs) →
      manualFS ar destDir l fs = fs := by
  intro l
  induction l with
  | nil => exact fun fs _ => rfl
  | cons a rest ih =>
    intro fs h
    rw [manualFS_cons, stepSettled_id ar destDir a fs (h a (List.mem_cons_self _ _))]
    exact ih fs (fun fn hm => h fn (List.mem_cons_of_mem a hm))

theorem mem_ensurePaths (ops : List FsOp) (p : FPath) (h : FsOp.ensure p ∈ ops) :
    p ∈ ensurePaths ops := by
  rw [ensurePaths, List.mem_filterMap]
  exact ⟨.ensure p, h, rfl⟩

/-- C5: under the archive well-formedness conditions (distinct listed
entries, nonempty entry paths, a listed entry whose parent path is also
a listed entry path is only nested under directory entries, ensured
directories never coincide with file-entry destinations, and no two
trace writes to one path disagree), a second `extractAsarWithUnpacked`
run started from the state a completed first run produced leaves the
destination tree exactly identical and itself completes without
error. -/
theorem claim_C5_idempotent_reextraction (I : ExtractIn) (fs : FS)
    (H1 : (I.ar.filenames.map nparts).Nodup)
    (H2 : ∀ fn ∈ I.ar.filenames, nparts fn ≠ [])
    (H3 : ∀ fn ∈ I.ar.filenames, ∀ fn' ∈ I.ar.filenames,
      (infoOf I.ar fn).isDir = false → (nparts fn').dropLast ≠ nparts fn)
    (H4 : ∀ p ∈ ensurePaths (extractOps I), ∀ fn ∈ I.ar.filenames,
      (infoOf I.ar fn).isDir = false → destOf I.destDir fn ≠ p)
    (H5 : opsConsistent (extractOps I) = true)
    (H0 : (extractM I fs).2.2 = none) :
    (extractM I ((extractM I fs).1)).1 = (extractM I fs).1 ∧
    (extractM I ((extractM I fs).1)).2.2 = none := by
  cases hc : (copyStage I).2.2 with
  | some e => simp [extractM, hc] at H0
  | none =>
    cases hb : (bulkStage I).2 with
    | none =>
      have hfs1 : (extractM I fs).1 = applyOps (extractOps I) fs := by
        simp [extractM, hc, hb, extractOps, applyOps_append]
      have hsatF : ∀ op ∈ extractOps I, OpSat ((extractM I fs).1) op := by
        rw [hfs1]
        exact applyOps_post (extractOps I) fs H5
      have hcopyid : applyOps (copyStage I).1 ((extractM I fs).1) =
          (extractM I fs).1 :=
        opsSat_apply_id _ _ (fun op hm =>
          hsatF op (by rw [extractOps]; exact List.mem_append_left _ hm))
      have hbulkid : applyOps (bulkStage I).1 ((extractM I fs).1) =
          (extractM I fs).1 :=
        opsSat_apply_id _ _ (fun op hm =>
          hsatF op (by rw [extractOps]; exact List.mem_append_right _ hm))
      have houter : ∀ G : FS, applyOps (copyStage I).1 G = G →
          applyOps (bulkStage I).1 G = G → (extractM I G).1 = G := by
        intro G hg1 hg2
        simp [extractM, hc, hb, hg1, hg2]
      constructor
      · exact houter _ hcopyid hbulkid
      · simp [extractM, hc, hb]
    | some e =>
      cases hsf : shouldFallback e with
      | false => simp [extractM, hc, hb, hsf] at H0
      | true =>
        have hfs2 : (extractM I fs).1 =
            manualFS I.ar I.destDir I.ar.filenames (applyOps (extractOps I) fs) := by
          simp [extractM, hc, hb, hsf, extractOps, applyOps_append]
        have hsat2 : ∀ op ∈ extractOps I, OpSat (applyOps (extractOps I) fs) op :=
          applyOps_post (extractOps I) fs H5
        have hsatF : ∀ op ∈ extractOps I, OpSat ((extractM I fs).1) op := by
          intro op hm
          rw [hfs2]
          cases op with
          | write p c =>
            exact manualFS_pres_file I.ar I.destDir I.ar.filenames _ p c (hsat2 _ hm)
          | ensure p =>
            exact manualFS_pres_nonnone I.ar I.destDir I.ar.filenames p
              (fun fn hfn hdf => (H4 p (mem_ensurePaths _ p hm) fn hfn hdf).symm) _
              (hsat2 _ hm)
        have hcopyid : applyOps (copyStage I).1 ((extractM I fs).1) =
            (extractM I fs).1 :=
          opsSat_apply_id _ _ (fun op hm =>
            hsatF op (by rw [extractOps]; exact List.mem_append_left _ hm))
        have hbulkid : applyOps (bulkStage I).1 ((extractM I fs).1) =
            (extractM I fs).1 :=
          opsSat_apply_id _ _ (fun op hm =>
            hsatF op (by rw [extractOps]; exact List.mem_append_right _ hm))
        have hman : manualFS I.ar I.destDir I.ar.filenames ((extractM I fs).1) =
            (extractM I fs).1 := by
          refine manualFS_id I.ar I.destDir I.ar.filenames _ ?_
          intro fn hm
          rw [hfs2]
          exact manualFS_settles_mem I.ar I.destDir I.ar.filenames H1 H2 H3 fn hm _
        have houter : ∀ G : FS, applyOps (copyStage I).1 G = G →
            applyOps (bulkStage I).1 G = G →
            manualFS I.ar I.destDir I.ar.filenames G = G → (extractM I G).1 = G := by
          intro G hg1 hg2 hg3
          simp [extractM, hc, hb, hsf, hg1, hg2, hg3]
        constructor
        · exact houter _ hcopyid hbulkid hman
        · simp [extractM, hc, hb, hsf]

/-- Witness for C5: a one-file archive (packed entry `a` with bytes
`x`), no unpacked directory, an empty destination: a first extraction
completes, and a second run on its output changes nothing and
completes. -/
theorem claim_C5_idempotent_reextraction_witness :
    (extractM ⟨⟨.mk (some [("a", .mk none none)]) none, ["a"], fun _ => .okBuf "x"⟩,
        none, "/gk/app.asar", ["d"]⟩
      ((extractM ⟨⟨.mk (some [("a", .mk none none)]) none, ["a"],
          fun _ => .okBuf "x"⟩, none, "/gk/app.asar", ["d"]⟩
        (fun _ => none)).1)).1 =
      (extractM ⟨⟨.mk (some [("a", .mk none none)]) none, ["a"],
          fun _ => .okBuf "x"⟩, none, "/gk/app.asar", ["d"]⟩
        (fun _ => none)).1 ∧
    (extractM ⟨⟨.mk (some [("a", .mk none none)]) none, ["a"], fun _ => .okBuf "x"⟩,
        none, "/gk/app.asar", ["d"]⟩
      ((extractM ⟨⟨.mk (some [("a", .mk none none)]) none, ["a"],
          fun _ => .okBuf "x"⟩, none, "/gk/app.asar", ["d"]⟩
        (fun _ => none)).1)).2.2 = none :=
  claim_C5_idempotent_reextraction
    ⟨⟨.mk (some [("a", .mk none none)]) none, ["a"], fun _ => .okBuf "x"⟩,
      none, "/gk/app.asar", ["d"]⟩ (fun _ => none)
    (by decide) (by decide) (by decide) (by decide) (by decide) (by rfl)
